import Mathlib

/-!
Verification development for the klexikon_crawler repository.

The HTML documents the crawler works on are modelled as rose trees
(`Node`, with child lists `NodeList`), and each Python function of
the repository is translated into a Lean function over this model:

* `crawler.py` : `remove_divs_by_class`, `remove_after_div_class`,
  `remove_after_hr`, `extract_content`, `split_into_sentences`;
* `crawler_klexikon.py` / `crawler_miniklexikon.py` : the per-article
  fetch (`_fetch_article`), the category-page walk and the
  thread-pool result collection loop;
* `crawler_projekt_gutenberg.py` : the "weiter" link selection with
  `is_descendant_of_dropdown` and `fetch_book_content` (pagination
  with the cycle guard);
* `crawler_wikijunior.py` : `parse_links` and
  `extract_wikijunior_content`.

Network fetching (`get_soup`) is modelled as an oracle
`String → Option Doc` (`none` is the logged-and-swallowed failure
path of `get_soup`), and `urllib.parse.urljoin` as an oracle
`String → String → String`, since both are external collaborators.
Python exceptions that escape a crawl function are modelled with
`Except`.  Unbounded `while True` loops and the unbounded recursion
of `parse_links` are modelled with explicit fuel; running out of
fuel is `Option.none`, distinct from any value the code can return.

BeautifulSoup semantics used by the translation:

* `find` / `find_all` traverse the descendants in document
  (pre-)order, an element before its own descendants;
* `get_text(sep, strip=True)` joins the stripped, non-empty text
  fragments of the subtree with `sep` (whitespace inside a single
  text fragment is preserved);
* `tag.string` is the text of a tag whose child list is a single
  node, descending through single-child tags, else `None`;
* text nodes are never matched by tag/class tests.

Python's `str.strip` and the regex class `\s` are modelled by the
ASCII whitespace set (space, tab, newline, carriage return, vertical
tab, form feed).
-/

namespace Crawler

mutual

/-- An HTML node: either a text fragment or an element with a tag
name, attributes and children. -/
inductive Node where
  | text (s : String)
  | elem (tag : String) (attrs : List (String × String)) (children : NodeList)

/-- A list of sibling HTML nodes. -/
inductive NodeList where
  | nil
  | cons (n : Node) (ns : NodeList)

end

mutual

/-- Structural equality test on nodes. -/
def Node.decEq : (a b : Node) → Decidable (a = b)
  | .text s, .text t =>
    if h : s = t then isTrue (by rw [h])
    else isFalse (fun he => h (by injection he))
  | .text _, .elem _ _ _ => isFalse (fun he => Node.noConfusion he)
  | .elem _ _ _, .text _ => isFalse (fun he => Node.noConfusion he)
  | .elem t1 a1 c1, .elem t2 a2 c2 =>
    if h1 : t1 = t2 then
      if h2 : a1 = a2 then
        match NodeList.decEq c1 c2 with
        | isTrue h3 => isTrue (by rw [h1, h2, h3])
        | isFalse h3 => isFalse (fun he => h3 (by injection he))
      else isFalse (fun he => h2 (by injection he))
    else isFalse (fun he => h1 (by injection he))

/-- Structural equality test on node lists. -/
def NodeList.decEq : (a b : NodeList) → Decidable (a = b)
  | .nil, .nil => isTrue rfl
  | .nil, .cons _ _ => isFalse (fun he => NodeList.noConfusion he)
  | .cons _ _, .nil => isFalse (fun he => NodeList.noConfusion he)
  | .cons x xs, .cons y ys =>
    match Node.decEq x y, NodeList.decEq xs ys with
    | isTrue h1, isTrue h2 => isTrue (by rw [h1, h2])
    | isTrue _, isFalse h2 => isFalse (fun he => h2 (by injection he))
    | isFalse h1, _ => isFalse (fun he => h1 (by injection he))

end

instance : DecidableEq Node := Node.decEq

instance : DecidableEq NodeList := NodeList.decEq

/-- A parsed document (`BeautifulSoup` object): its top-level nodes. -/
abbrev Doc := NodeList

/-- Build a `NodeList` from a `List Node` (for writing examples). -/
def nodes : List Node → NodeList
  | [] => .nil
  | n :: ns => .cons n (nodes ns)

/-- The children of a node (`.nil` for text nodes). -/
def Node.children : Node → NodeList
  | .text _ => .nil
  | .elem _ _ ch => ch

/-- The attributes of a node (`[]` for text nodes). -/
def Node.attributes : Node → List (String × String)
  | .text _ => []
  | .elem _ a _ => a

/-- Python's ASCII whitespace (the characters matched by `\s` and
stripped by `str.strip`). -/
def pyWs (c : Char) : Bool :=
  c = ' ' || c = '\t' || c = '\n' || c = '\r' || c = '\x0b' || c = '\x0c'

/-- Drop trailing whitespace from a character list. -/
def dropTrailWs : List Char → List Char
  | [] => []
  | c :: cs =>
    match dropTrailWs cs with
    | [] => if pyWs c then [] else [c]
    | d :: r => c :: d :: r

/-- Python `str.strip()` on a character list: drop leading and
trailing whitespace. -/
def pyStripChars (cs : List Char) : List Char :=
  dropTrailWs (cs.dropWhile pyWs)

/-- Python `str.strip()`. -/
def pyStrip (s : String) : String :=
  ⟨pyStripChars s.data⟩

/-- `tag.get(key)` on an attribute list. -/
def getAttr (attrs : List (String × String)) (key : String) : Option String :=
  (attrs.find? (fun p => p.1 == key)).map Prod.snd

/-- Whitespace-separated words of a character list (`str.split()`),
with the current word accumulated in reverse. -/
def wsWordsAux : List Char → List Char → List String
  | [], acc => if acc.isEmpty then [] else [⟨acc.reverse⟩]
  | c :: cs, acc =>
    if pyWs c then
      if acc.isEmpty then wsWordsAux cs []
      else ⟨acc.reverse⟩ :: wsWordsAux cs []
    else wsWordsAux cs (c :: acc)

/-- `tag.get("class", [])`: the whitespace-separated class values. -/
def classList (attrs : List (String × String)) : List String :=
  match getAttr attrs "class" with
  | none => []
  | some v => wsWordsAux v.data []

/-- Is this node an element with the given tag name?  Text nodes
never match. -/
def isTag (tag : String) : Node → Bool
  | .text _ => false
  | .elem t _ _ => t == tag

/-- Is this node an element with the given tag carrying the given
class? -/
def isTagWithClass (tag cls : String) : Node → Bool
  | .text _ => false
  | .elem t attrs _ => t == tag && cls ∈ classList attrs

/-- Is this node an element with the given tag and id? -/
def isTagWithId (tag idv : String) : Node → Bool
  | .text _ => false
  | .elem t attrs _ => t == tag && getAttr attrs "id" == some idv

/-- Does this element carry the given class (any tag)? -/
def hasClass (cls : String) : Node → Bool
  | .text _ => false
  | .elem _ attrs _ => cls ∈ classList attrs

mutual

/-- The stripped, non-empty text fragments of a subtree, in document
order (the strings joined by `get_text(sep, strip=True)`). -/
def textFragments : Node → List String
  | .text s => if pyStrip s = "" then [] else [pyStrip s]
  | .elem _ _ ch => textFragmentsList ch

/-- `textFragments` over a list of sibling nodes. -/
def textFragmentsList : NodeList → List String
  | .nil => []
  | .cons n ns => textFragments n ++ textFragmentsList ns

end

/-- `node.get_text(" ", strip=True)`. -/
def getTextSpace (n : Node) : String :=
  String.intercalate " " (textFragments n)

/-- `node.get_text(strip=True)` (empty separator). -/
def getTextStrip (n : Node) : String :=
  String.join (textFragments n)

/-- `soup.get_text(" ", strip=True)` on a whole document. -/
def docTextSpace (doc : Doc) : String :=
  String.intercalate " " (textFragmentsList doc)

/-- `tag.string`: the unique text fragment reached through
single-child tags, else `none`. -/
def nodeString : Node → Option String
  | .text s => some s
  | .elem _ _ (.cons c .nil) => nodeString c
  | .elem _ _ _ => none

mutual

/-- `find_all(pred)` on a subtree: the matching nodes in document
(pre-)order, the node itself included. -/
def collectNodes (p : Node → Bool) : Node → List Node
  | .text s => if p (.text s) then [.text s] else []
  | .elem t a ch =>
    (if p (.elem t a ch) then [.elem t a ch] else []) ++ collectNodesList p ch

/-- `collectNodes` over sibling nodes. -/
def collectNodesList (p : Node → Bool) : NodeList → List Node
  | .nil => []
  | .cons n ns => collectNodes p n ++ collectNodesList p ns

end

mutual

/-- `find_all(pred)` where each match is paired with the flag
"some strict ancestor satisfies `anc`" (used for `find_parent` and
`is_descendant_of_dropdown` tests). -/
def collectFlagged (anc p : Node → Bool) (flag : Bool) : Node → List (Node × Bool)
  | .text s => if p (.text s) then [(.text s, flag)] else []
  | .elem t a ch =>
    (if p (.elem t a ch) then [(.elem t a ch, flag)] else []) ++
      collectFlaggedList anc p (flag || anc (.elem t a ch)) ch

/-- `collectFlagged` over sibling nodes. -/
def collectFlaggedList (anc p : Node → Bool) (flag : Bool) : NodeList → List (Node × Bool)
  | .nil => []
  | .cons n ns => collectFlagged anc p flag n ++ collectFlaggedList anc p flag ns

end

mutual

/-- `find(pred)` on a subtree: the first match in document order. -/
def findNode (p : Node → Bool) : Node → Option Node
  | .text s => if p (.text s) then some (.text s) else none
  | .elem t a ch =>
    if p (.elem t a ch) then some (.elem t a ch) else findNodeList p ch

/-- `findNode` over sibling nodes. -/
def findNodeList (p : Node → Bool) : NodeList → Option Node
  | .nil => none
  | .cons n ns =>
    match findNode p n with
    | some m => some m
    | none => findNodeList p ns

end

mutual

/-- Does some node of the subtree (itself included) satisfy `p`? -/
def existsNode (p : Node → Bool) : Node → Bool
  | .text s => p (.text s)
  | .elem t a ch => p (.elem t a ch) || existsNodeList p ch

/-- `existsNode` over sibling nodes. -/
def existsNodeList (p : Node → Bool) : NodeList → Bool
  | .nil => false
  | .cons n ns => existsNode p n || existsNodeList p ns

end

mutual

/-- Decompose every node satisfying `p`, wherever it occurs (the
pattern of `remove_divs_by_class` and the `<table>` removal). -/
def removeAll (p : Node → Bool) : Node → Node
  | .text s => .text s
  | .elem t a ch => .elem t a (removeAllList p ch)

/-- `removeAll` over sibling nodes: matching nodes are dropped with
their whole subtrees. -/
def removeAllList (p : Node → Bool) : NodeList → NodeList
  | .nil => .nil
  | .cons n ns =>
    if p n then removeAllList p ns
    else .cons (removeAll p n) (removeAllList p ns)

end

/-- `crawler.remove_divs_by_class(soup, class_name)`. -/
def remove_divs_by_class (doc : Doc) (cls : String) : Doc :=
  removeAllList (isTagWithClass "div" cls) doc

mutual

/-- The truncation of `remove_after_div_class` / `remove_after_hr`,
applied to a node known or suspected to contain the first match: the
first `p`-node in document order is removed together with every
later sibling at its own level. -/
def removeAfterNode (p : Node → Bool) : Node → Node
  | .text s => .text s
  | .elem t a ch => .elem t a (removeAfterList p ch)

/-- `removeAfterNode` over sibling nodes: `soup.find(p)` followed by
decomposing the found node and all its following siblings. -/
def removeAfterList (p : Node → Bool) : NodeList → NodeList
  | .nil => .nil
  | .cons n ns =>
    if p n then .nil
    else if existsNode p n then .cons (removeAfterNode p n) ns
    else .cons n (removeAfterList p ns)

end

/-- `crawler.remove_after_div_class(soup, class_name)`. -/
def remove_after_div_class (doc : Doc) (cls : String) : Doc :=
  removeAfterList (isTagWithClass "div" cls) doc

/-- `crawler.remove_after_hr(soup)`. -/
def remove_after_hr (doc : Doc) : Doc :=
  removeAfterList (isTag "hr") doc

/-- A truncation point located by a pre-order search: `stop` marks
the head node, `descend` goes into the head node's children,
`step` skips past the head node. -/
inductive TPath where
  | stop
  | descend (t : TPath)
  | step (t : TPath)
deriving Repr, DecidableEq

mutual

/-- The pre-order-first `p`-node of a subtree, as a truncation
point into its children. -/
def findTNode (p : Node → Bool) : Node → Option TPath
  | .text _ => none
  | .elem _ _ ch => findTList p ch

/-- The pre-order-first `p`-node of a sibling list, as a truncation
point. -/
def findTList (p : Node → Bool) : NodeList → Option TPath
  | .nil => none
  | .cons n ns =>
    if p n then some .stop
    else
      match findTNode p n with
      | some t => some (.descend t)
      | none => (findTList p ns).map .step

end

mutual

/-- Surgical truncation at a located point: drop the marked node and
all its later siblings; every other node is kept unchanged. -/
def truncAtNode : Node → TPath → Node
  | .text s, _ => .text s
  | .elem tg a ch, t => .elem tg a (truncAtList ch t)

/-- `truncAtNode` on a sibling list. -/
def truncAtList : NodeList → TPath → NodeList
  | .nil, _ => .nil
  | .cons _ _, .stop => .nil
  | .cons n ns, .descend t => .cons (truncAtNode n t) ns
  | .cons n ns, .step t => .cons n (truncAtList ns t)

end

/-- The heading/paragraph tags collected by the extractors. -/
def contentTags : List String :=
  ["p", "h1", "h2", "h3", "h4", "h5", "h6"]

/-- Is this node a heading (h1-h6) or paragraph element? -/
def isContentTag : Node → Bool
  | .text _ => false
  | .elem t _ _ => t ∈ contentTags

/-- The `div.mw-parser-output` candidates of `extract_content` in
`find_all` order, each flagged with the
`find_parent("div", id="mw-content-text")` test. -/
def parserDivCands (doc : Doc) : List (Node × Bool) :=
  collectFlaggedList (isTagWithId "div" "mw-content-text")
    (isTagWithClass "div" "mw-parser-output") false doc

/-- The container-selection step of `extract_content`: the first
`mw-parser-output` div nested inside `div#mw-content-text`, else the
first such div, else none. -/
def selectParserDiv (doc : Doc) : Option Node :=
  match (parserDivCands doc).find? (fun p => p.2) with
  | some p => some p.1
  | none => (parserDivCands doc).head?.map Prod.fst

/-- The direct-children walk of `extract_content`: collect heading and
paragraph texts, stopping at the first `div` child carrying the stop
marker class. -/
def extractChildren (stopMarker : String) : NodeList → List String
  | .nil => []
  | .cons (.text _) rest => extractChildren stopMarker rest
  | .cons (.elem tag attrs ch) rest =>
    if tag == "div" && stopMarker ∈ classList attrs then []
    else if tag ∈ contentTags then
      let t := getTextSpace (.elem tag attrs ch)
      if t = "" then extractChildren stopMarker rest
      else t :: extractChildren stopMarker rest
    else extractChildren stopMarker rest

/-- `crawler.extract_content(soup, stop_marker)`. -/
def extract_content (doc : Doc) (stopMarker : String := "mw-inputbox-centered") :
    List String :=
  match selectParserDiv doc with
  | none => []
  | some n => extractChildren stopMarker n.children

/-- A sentence terminator character (the regex class `[.?!]`). -/
def isTerm (c : Char) : Bool :=
  c = '.' || c = '?' || c = '!'

/-- Scanner state for `re.split(r'[.?!]+(?:\s+|$)', _)`: in plain
text, after a pending terminator run (kept in reverse), or after a
confirmed separator inside its whitespace run. -/
inductive ScanState where
  | normal
  | afterTerm (run : List Char)
  | afterWs
deriving Repr, DecidableEq

/-- The left-to-right scan of `re.split(r'[.?!]+(?:\s+|$)', _)`: a
maximal terminator run followed by whitespace or the end of the
input separates segments; any other terminator run is literal text.
`acc` is the current segment, reversed. -/
def sentScan : List Char → ScanState → List Char → List String
  | [], .normal, acc => [⟨acc.reverse⟩]
  | [], .afterTerm _, acc => [⟨acc.reverse⟩, ""]
  | [], .afterWs, acc => [⟨acc.reverse⟩]
  | c :: cs, .normal, acc =>
    if isTerm c then sentScan cs (.afterTerm [c]) acc
    else sentScan cs .normal (c :: acc)
  | c :: cs, .afterTerm run, acc =>
    if isTerm c then sentScan cs (.afterTerm (c :: run)) acc
    else if pyWs c then ⟨acc.reverse⟩ :: sentScan cs .afterWs []
    else sentScan cs .normal (c :: (run ++ acc))
  | c :: cs, .afterWs, acc =>
    if isTerm c then sentScan cs (.afterTerm [c]) acc
    else if pyWs c then sentScan cs .afterWs acc
    else sentScan cs .normal (c :: acc)

/-- `crawler.split_into_sentences(paragraph)`. -/
def split_into_sentences (paragraph : String) : List String :=
  ((sentScan paragraph.data .normal []).map pyStrip).filter (fun s => s ≠ "")

/-- The network: `get_soup(url)` either yields a parsed document or
(after logging) `none`. -/
abbrev Fetch := String → Option Doc

/-- The URL resolver collaborator (`urllib.parse.urljoin`). -/
abbrev UrlJoin := String → String → String

/-- `s.startswith(pre)`. -/
def strStartsWith (s pre : String) : Bool :=
  pre.data.isPrefixOf s.data

/-- A value of a result dictionary: a string or a list of strings. -/
inductive FieldVal where
  | str (s : String)
  | vals (l : List String)
deriving Repr, DecidableEq

/-- A result dictionary, as an ordered key/value list. -/
abbrev Record := List (String × FieldVal)

/-- `crawler_klexikon._fetch_article(url, session)`.  When `get_soup`
returns `None`, `remove_divs_by_class(None, _)` raises an
`AttributeError` that the surrounding `try` swallows, producing the
fallback record — whose middle key is `"Content"`, not
`"Paragraphs"`. -/
def fetchArticleKlexikon (fetch : Fetch) (url : String) : Record :=
  match fetch url with
  | none =>
    [("WikiLink", .str url), ("Content", .vals []), ("Sentences", .vals [])]
  | some soup =>
    let soup := remove_divs_by_class soup "klexibox"
    let soup := remove_after_div_class soup "mw-inputbox-centered"
    let paragraphs := extract_content soup
    let sentences := paragraphs.flatMap split_into_sentences
    [("WikiLink", .str url), ("Paragraphs", .vals paragraphs),
     ("Sentences", .vals sentences)]

/-- `crawler_miniklexikon._fetch_article(url, session)`: like the
Klexikon version but truncating at the first `<hr>`, and with a
`"Paragraphs"` key also in the fallback record. -/
def fetchArticleMini (fetch : Fetch) (url : String) : Record :=
  match fetch url with
  | none =>
    [("WikiLink", .str url), ("Paragraphs", .vals []), ("Sentences", .vals [])]
  | some soup =>
    let soup := remove_divs_by_class soup "klexibox"
    let soup := remove_after_hr soup
    let paragraphs := extract_content soup
    let sentences := paragraphs.flatMap split_into_sentences
    [("WikiLink", .str url), ("Paragraphs", .vals paragraphs),
     ("Sentences", .vals sentences)]

/-- The exceptions that can escape a crawl loop: `AttributeError`
(attribute access on `None`) and `KeyError` (`tag["href"]` with no
such attribute). -/
inductive CrawlErr where
  | attributeError
  | keyError
deriving Repr, DecidableEq

/-- `soup.select("div.mw-category a")`: anchors strictly inside a
`div.mw-category`, in document order. -/
def categoryAnchors (doc : Doc) : List Node :=
  ((collectFlaggedList (isTagWithClass "div" "mw-category") (isTag "a") false doc).filter
    (fun p => p.2)).map Prod.fst

/-- The per-page URL harvest of the category walk: hrefs beginning
with `/wiki/`, absolutized against the site base. -/
def pageArticleUrls (base : String) (doc : Doc) : List String :=
  (categoryAnchors doc).filterMap (fun n =>
    match getAttr n.attributes "href" with
    | some h => if h != "" && strStartsWith h "/wiki/" then some (base ++ h) else none
    | none => none)

/-- `soup.find("a", string="nächste Seite")`'s predicate. -/
def isNextPageLink (n : Node) : Bool :=
  isTag "a" n && nodeString n == some "nächste Seite"

/-- Python `if max_pages and page_count >= max_pages` (`0`/`None`
are falsy: no limit). -/
def maxPagesReached (maxPages : Option Nat) (pageCount : Nat) : Bool :=
  match maxPages with
  | none => false
  | some m => decide (0 < m) && decide (m ≤ pageCount)

/-- The `while True` category walk shared by `crawl_klexikon` and
`crawl_miniklexikon`: harvest article URLs page by page, following
`"nächste Seite"` links.  A failed category-page fetch makes
`soup.select` raise `AttributeError`; a next-link without `href`
makes `next_link["href"]` raise `KeyError`. -/
def collectArticleUrls (fetch : Fetch) (base : String) :
    Nat → String → List String → Nat → Option Nat →
      Option (Except CrawlErr (List String))
  | 0, _, _, _, _ => none
  | fuel + 1, url, acc, pageCount, maxPages =>
    match fetch url with
    | none => some (.error .attributeError)
    | some soup =>
      let acc := acc ++ pageArticleUrls base soup
      match findNodeList isNextPageLink soup with
      | none => some (.ok acc)
      | some nl =>
        match getAttr nl.attributes "href" with
        | none => some (.error .keyError)
        | some h =>
          if maxPagesReached maxPages (pageCount + 1) then some (.ok acc)
          else collectArticleUrls fetch base fuel (base ++ h) acc (pageCount + 1) maxPages

/-- The result-collection loop over `as_completed(futures)`: `comp`
lists the indices of the submitted work items in completion order;
each completed item's record gets the 1-based completion position as
its `ID`. -/
def schedulerRecords {α : Type} (proc : String → α) (urls : List String)
    (comp : List Nat) : List (Nat × α) :=
  ((comp.filterMap (fun i => urls[i]?)).map proc).enum.map
    (fun p => (p.1 + 1, p.2))

/-- `crawler_klexikon.crawl_klexikon`, for a given fetch oracle,
fuel, and completion order of the concurrent article fetches. -/
def crawl_klexikon (fetch : Fetch) (fuel : Nat) (startUrl : String)
    (maxPages : Option Nat) (comp : List Nat) :
    Option (Except CrawlErr (List (Nat × Record))) :=
  match collectArticleUrls fetch "https://klexikon.zum.de" fuel startUrl [] 0 maxPages with
  | none => none
  | some (.error e) => some (.error e)
  | some (.ok urls) =>
    some (.ok (schedulerRecords (fetchArticleKlexikon fetch) urls comp))

/-- `crawler_miniklexikon.crawl_miniklexikon`. -/
def crawl_miniklexikon (fetch : Fetch) (fuel : Nat) (startUrl : String)
    (maxPages : Option Nat) (comp : List Nat) :
    Option (Except CrawlErr (List (Nat × Record))) :=
  match collectArticleUrls fetch "https://miniklexikon.zum.de" fuel startUrl [] 0 maxPages with
  | none => none
  | some (.error e) => some (.error e)
  | some (.ok urls) =>
    some (.ok (schedulerRecords (fetchArticleMini fetch) urls comp))

/-- ASCII `str.lower()`. -/
def lowerChars (cs : List Char) : List Char :=
  cs.map Char.toLower

/-- Substring test on character lists (`needle in hay`). -/
def containsChars (hay needle : List Char) : Bool :=
  match hay with
  | [] => needle.isEmpty
  | c :: t => needle.isPrefixOf (c :: t) || containsChars t needle

/-- The candidate test of
`soup.find_all("a", string=lambda t: t and "weiter" in t.lower())`. -/
def isWeiterAnchor (n : Node) : Bool :=
  isTag "a" n &&
    match nodeString n with
    | none => false
    | some s => s != "" && containsChars (lowerChars s.data) "weiter".data

/-- The "weiter" pagination-link candidates in document order, each
flagged by `is_descendant_of_dropdown`. -/
def weiterCands (doc : Doc) : List (Node × Bool) :=
  collectFlaggedList (hasClass "dropdown") isWeiterAnchor false doc

/-- The next-page href selection of `fetch_book_content`: the first
non-dropdown "weiter" candidate, provided it has a truthy `href`. -/
def gutenbergNextHref (doc : Doc) : Option String :=
  match (weiterCands doc).find? (fun p => !p.2) with
  | none => none
  | some p =>
    match getAttr p.1.attributes "href" with
    | none => none
    | some h => if h = "" then none else some h

mutual

/-- The later siblings of the pre-order-first `p`-node inside this
node (`first.next_siblings`). -/
def tailAfterFirstNode (p : Node → Bool) : Node → Option NodeList
  | .text _ => none
  | .elem t a ch =>
    if p (.elem t a ch) then none else tailAfterFirstList p ch

/-- `tailAfterFirstNode` over sibling nodes. -/
def tailAfterFirstList (p : Node → Bool) : NodeList → Option NodeList
  | .nil => none
  | .cons n ns =>
    if p n then some ns
    else
      match tailAfterFirstNode p n with
      | some r => some r
      | none => tailAfterFirstList p ns

end

/-- The between-`<hr>` harvest of `fetch_book_content`: walk siblings
until the next `<hr>`, appending each heading/paragraph text plus a
space. -/
def collectBetweenHr : NodeList → String
  | .nil => ""
  | .cons n ns =>
    if isTag "hr" n then ""
    else if isContentTag n then
      let t := getTextSpace n
      if t = "" then collectBetweenHr ns else t ++ " " ++ collectBetweenHr ns
    else collectBetweenHr ns

/-- The per-page text of `fetch_book_content` (on the soup already
cleaned of `div.anzeige-chap`): text between the first two `<hr>`
tags if at least two exist, else the whole page's text. -/
def gutenbergPageText (soup : Doc) : String :=
  if 2 ≤ (collectNodesList (isTag "hr") soup).length then
    pyStrip (collectBetweenHr ((tailAfterFirstList (isTag "hr") soup).getD .nil))
  else
    pyStrip (docTextSpace soup)

/-- `" ".join(content_blocks).strip()`. -/
def bookFullText (blocks : List String) : String :=
  pyStrip (String.intercalate " " blocks)

/-- The `while True` pagination loop of `fetch_book_content`, with
fuel.  Returns the final full text together with the URLs fetched in
order (`none` = fuel ran out, i.e. the loop is still running). -/
def fetchBookLoop (fetch : Fetch) (uj : UrlJoin) :
    Nat → String → List String → List String → Option (String × List String)
  | 0, _, _, _ => none
  | fuel + 1, url, blocks, fetched =>
    match fetch url with
    | none => some (bookFullText blocks, fetched ++ [url])
    | some soup0 =>
      let soup := remove_divs_by_class soup0 "anzeige-chap"
      let blocks := blocks ++ [gutenbergPageText soup]
      match gutenbergNextHref soup with
      | none => some (bookFullText blocks, fetched ++ [url])
      | some h =>
        let nextUrl := uj url h
        if nextUrl = url then some (bookFullText blocks, fetched ++ [url])
        else fetchBookLoop fetch uj fuel nextUrl blocks (fetched ++ [url])

/-- `crawler_projekt_gutenberg.fetch_book_content(book_link, session)`
(also reporting the fetched URLs). -/
def fetch_book_content (fetch : Fetch) (uj : UrlJoin) (fuel : Nat)
    (bookLink : String) : Option (String × List String) :=
  fetchBookLoop fetch uj fuel bookLink [] []

/-- `link_url.split('#')[0]`: the URL with any fragment removed. -/
def stripFragment (url : String) : String :=
  ⟨url.data.takeWhile (fun c => c ≠ '#')⟩

/-- A parsed TOC link of `crawler_wikijunior.parse_links`; an absent
`subchapters` key is modelled as `[]`. -/
structure LinkInfo where
  text : String
  href : String
  title : Option String
  subchapters : List LinkInfo

/-- The anchor selection of `parse_links`: among `li.find_all("a")`
in document order, the first that does not contain an `<img>`. -/
def selectAnchor (li : Node) : Option Node :=
  (collectNodesList (isTag "a") li.children).find?
    (fun a => !existsNodeList (isTag "img") a.children)

mutual

/-- `crawler_wikijunior.parse_links(list_element, base_url,
parent_href)`, with fuel for the nested-list recursion. -/
def parse_links (uj : UrlJoin) : Nat → Node → String → Option String →
    Option (List LinkInfo)
  | 0, _, _, _ => none
  | fuel + 1, listElem, baseUrl, parentHref =>
    parseLinkItems uj fuel listElem.children baseUrl parentHref

/-- The `for li in list_element.find_all("li", recursive=False)`
loop of `parse_links`. -/
def parseLinkItems (uj : UrlJoin) : Nat → NodeList → String → Option String →
    Option (List LinkInfo)
  | 0, _, _, _ => none
  | _ + 1, .nil, _, _ => some []
  | fuel + 1, .cons n ns, baseUrl, parentHref =>
    if isTag "li" n then
      match selectAnchor n with
      | none => parseLinkItems uj fuel ns baseUrl parentHref
      | some a =>
        let rawHref := (getAttr a.attributes "href").getD ""
        let linkUrl := uj baseUrl rawHref
        if parentHref.elim false (fun p => stripFragment linkUrl == stripFragment p) then
          parseLinkItems uj fuel ns baseUrl parentHref
        else
          let subs :=
            match findNodeList (fun m => isTag "ol" m || isTag "ul" m) n.children with
            | none => some []
            | some nested => parse_links uj fuel nested baseUrl (some linkUrl)
          match subs, parseLinkItems uj fuel ns baseUrl parentHref with
          | some sc, some rest =>
            some ({ text := getTextStrip a, href := linkUrl,
                    title := getAttr a.attributes "title", subchapters := sc } :: rest)
          | _, _ => none
    else parseLinkItems uj fuel ns baseUrl parentHref

end

/-- `crawler_wikijunior.extract_wikijunior_content(url, session)`. -/
def extract_wikijunior_content (fetch : Fetch) (url : String) : List String :=
  match fetch url with
  | none => []
  | some soup =>
    match findNodeList (isTagWithId "div" "mw-content-text") soup with
    | none => []
    | some contentDiv =>
      let cd := removeAllList (isTag "table") contentDiv.children
      (collectNodesList isContentTag cd).filterMap (fun e =>
        let t := getTextSpace e
        if t = "" then none else some t)

/-- Convert a `NodeList` back to a `List Node`. -/
def NodeList.toList : NodeList → List Node
  | .nil => []
  | .cons n ns => n :: NodeList.toList ns

/-- The container tie-break as the specification phrases it: the
first candidate nested inside the outer content wrapper if any, else
the first candidate. -/
def selectParserDivSpec (doc : Doc) : Option Node :=
  match ((parserDivCands doc).filter (fun p => p.2)).head? with
  | some p => some p.1
  | none => (parserDivCands doc).head?.map Prod.fst

/-- The Content Extractor as the (amended) specification describes
it: select the container by the tie-break, truncate its direct
children exclusively at the first stop-marker `div` child, keep the
heading/paragraph children's texts, drop empties. -/
def extractContentSpec (doc : Doc) (stopMarker : String) : List String :=
  match selectParserDivSpec doc with
  | none => []
  | some n =>
    ((n.children.toList.takeWhile
        (fun c => !isTagWithClass "div" stopMarker c)).filter isContentTag).filterMap
      (fun c => if getTextSpace c = "" then none else some (getTextSpace c))

/-! Concrete documents and oracles used by counterexamples and
witnesses. -/

/-- The specification's running example content:
`<p>Hallo Welt.</p><div class="stop-marker">x</div><p>Nach Marker.</p>`
inside a `mw-parser-output` container. -/
def exampleDoc : Doc :=
  nodes [.elem "div" [("class", "mw-parser-output")] (nodes
    [.elem "p" [] (nodes [.text "Hallo Welt."]),
     .elem "div" [("class", "stop-marker")] (nodes [.text "x"]),
     .elem "p" [] (nodes [.text "Nach Marker."])])]

/-- A container whose paragraph holds a single text fragment with an
internal double space. -/
def doubleSpaceDoc : Doc :=
  nodes [.elem "div" [("class", "mw-parser-output")] (nodes
    [.elem "p" [] (nodes [.text "Hallo  Welt."])])]

/-- A container whose first child is a `<p>` carrying the stop-marker
class (not a `div`), followed by another paragraph. -/
def stopClassParagraphDoc : Doc :=
  nodes [.elem "div" [("class", "mw-parser-output")] (nodes
    [.elem "p" [("class", "stop-marker")] (nodes [.text "x"]),
     .elem "p" [] (nodes [.text "Nach Marker."])])]

/-- A document whose only `div.m` marker is nested one level down:
no direct child of the document satisfies the truncation predicate. -/
def nestedMarkerDoc : Doc :=
  nodes [.elem "div" [] (nodes
    [.elem "div" [("class", "m")] .nil,
     .elem "p" [] (nodes [.text "sib"])]),
   .elem "p" [] (nodes [.text "outer"])]

/-- A book page with a single `<hr>` separator and some page text. -/
def oneHrPage : Doc :=
  nodes [.elem "hr" [] .nil,
   .elem "p" [] (nodes [.text "Voller Seitentext."])]

/-- A book page whose "weiter" link resolves back to the page
itself. -/
def selfLinkPage : Doc :=
  nodes [.elem "hr" [] .nil,
   .elem "p" [] (nodes [.text "Seite eins."]),
   .elem "hr" [] .nil,
   .elem "a" [("href", "kap1.html")] (nodes [.text "weiter >>"])]

/-- An oracle serving only `selfLinkPage` at `kap1.html`. -/
def selfLinkFetch : Fetch := fun u =>
  if u = "kap1.html" then some selfLinkPage else none

/-- Book page A of a two-page pagination cycle: its "weiter" link
leads to page B. -/
def cyclePageA : Doc :=
  nodes [.elem "p" [] (nodes [.text "Inhalt A."]),
   .elem "a" [("href", "B.html")] (nodes [.text "weiter >>"])]

/-- Book page B of the cycle: its "weiter" link leads back to A. -/
def cyclePageB : Doc :=
  nodes [.elem "p" [] (nodes [.text "Inhalt B."]),
   .elem "a" [("href", "A.html")] (nodes [.text "weiter >>"])]

/-- An oracle on which every fetch of the two cycle pages succeeds. -/
def cycleFetch : Fetch := fun u =>
  if u = "A.html" then some cyclePageA
  else if u = "B.html" then some cyclePageB
  else none

/-- A resolver for which the hrefs of the cycle pages are already
absolute. -/
def cycleUj : UrlJoin := fun _ h => h

/-- A category page listing two articles and having no
`"nächste Seite"` link. -/
def categoryPage : Doc :=
  nodes [.elem "div" [("class", "mw-category")] (nodes
    [.elem "a" [("href", "/wiki/A")] (nodes [.text "A"]),
     .elem "a" [("href", "/wiki/B")] (nodes [.text "B"])])]

/-- An oracle serving `categoryPage` at the category URL and failing
every article fetch. -/
def categoryOnlyFetch : Fetch := fun u =>
  if u = "https://klexikon.zum.de/wiki/Kategorie:Klexikon-Artikel" then some categoryPage
  else none

/-- A small TOC list: one chapter link `ch1#top` whose nested list
holds a self-link `ch1#sec` (to be deduplicated) and a genuine
sub-link `ch2`. -/
def tocListDoc : Node :=
  .elem "ul" [] (nodes
    [.elem "li" [] (nodes
      [.elem "a" [("href", "ch1#top")] (nodes [.text "Ch1"]),
       .elem "ul" [] (nodes
         [.elem "li" [] (nodes [.elem "a" [("href", "ch1#sec")] (nodes [.text "Ch1 again"])]),
          .elem "li" [] (nodes [.elem "a" [("href", "ch2")] (nodes [.text "Ch2"])])])])])

/-- A resolver treating every href as already absolute. -/
def rawUj : UrlJoin := fun _ h => h

/-- A document containing no `mw-parser-output` container at all. -/
def noContainerDoc : Doc :=
  nodes [.elem "div" [("class", "andere")] (nodes
    [.elem "p" [] (nodes [.text "Text ohne Container."])])]

/-- The TOC self-link invariant: no link's fragment-stripped URL
equals the fragment-stripped URL of the link it is nested under. -/
inductive NoSelfLinks : LinkInfo → Prop where
  | mk (l : LinkInfo) :
      (∀ c ∈ l.subchapters, stripFragment c.href ≠ stripFragment l.href) →
      (∀ c ∈ l.subchapters, NoSelfLinks c) →
      NoSelfLinks l

/-- No separator of `re.split(r'[.?!]+(?:\s+|$)', _)` occurs in this
character list: no terminator is followed by whitespace, and none
ends the list. -/
def noBoundary : List Char → Bool
  | [] => true
  | [c] => !isTerm c
  | c :: d :: rest => !(isTerm c && pyWs d) && noBoundary (d :: rest)

/-- A string the sentence splitter can emit: non-empty, no leading or
trailing whitespace, and containing no separator occurrence. -/
def goodSentence (s : String) : Bool :=
  match s.data with
  | [] => false
  | c :: cs => !pyWs c && !pyWs (cs.getLastD c) && noBoundary (c :: cs)

/-- A non-empty run of sentence terminators. -/
def isTermRun (t : String) : Bool :=
  !t.data.isEmpty && t.data.all isTerm

/-- Rejoin sentences with terminator runs: each sentence is followed
by its terminator, and sentences are separated by single spaces. -/
def rejoin : List String → List String → String
  | [], _ => ""
  | _ :: _, [] => ""
  | [s], t :: _ => s ++ t
  | s :: s2 :: ss, t :: ts => s ++ t ++ " " ++ rejoin (s2 :: ss) ts

instance {ε α : Type} [DecidableEq ε] [DecidableEq α] : DecidableEq (Except ε α)
  | .error a, .error b =>
    if h : a = b then isTrue (by rw [h])
    else isFalse (fun he => h (by injection he))
  | .error _, .ok _ => isFalse (fun he => Except.noConfusion he)
  | .ok _, .error _ => isFalse (fun he => Except.noConfusion he)
  | .ok a, .ok b =>
    if h : a = b then isTrue (by rw [h])
    else isFalse (fun he => h (by injection he))

/-! ## Theorems -/

/-! ### The Fetch Scheduler (C1) -/

theorem range_filterMap_getElem {α : Type} (xs : List α) :
    (List.range xs.length).filterMap (fun i => xs[i]?) = xs := by
  induction xs with
  | nil => simp
  | cons x xs ih =>
    rw [List.length_cons, List.range_succ_eq_map]
    simp only [List.filterMap_cons, List.getElem?_cons_zero, List.filterMap_map,
      Function.comp_def, List.getElem?_cons_succ]
    exact congrArg (x :: ·) ih

theorem completed_perm {α : Type} (proc : String → α) (urls : List String)
    (comp : List Nat) (hperm : comp.Perm (List.range urls.length)) :
    ((comp.filterMap (fun i => urls[i]?)).map proc).Perm (urls.map proc) := by
  have h1 : (comp.filterMap (fun i => urls[i]?)).Perm
      ((List.range urls.length).filterMap (fun i => urls[i]?)) :=
    hperm.filterMap _
  rw [range_filterMap_getElem] at h1
  exact h1.map proc

theorem schedulerRecords_ids {α : Type} (proc : String → α) (urls : List String)
    (comp : List Nat) (hperm : comp.Perm (List.range urls.length)) :
    (schedulerRecords proc urls comp).map Prod.fst = List.range' 1 urls.length := by
  have hlen : ((comp.filterMap (fun i => urls[i]?)).map proc).length = urls.length :=
    (completed_perm proc urls comp hperm).length_eq.trans (List.length_map _ _)
  unfold schedulerRecords
  rw [List.map_map]
  have h2 : (Prod.fst ∘ fun p : Nat × α => (p.1 + 1, p.2)) =
      ((fun i => 1 + i) ∘ Prod.fst) := by
    funext p; simp [Nat.add_comm]
  rw [h2, ← List.map_map, List.enum_map_fst, ← List.range'_eq_map_range, hlen]

theorem schedulerRecords_results {α : Type} (proc : String → α) (urls : List String)
    (comp : List Nat) :
    (schedulerRecords proc urls comp).map Prod.snd =
      (comp.filterMap (fun i => urls[i]?)).map proc := by
  unfold schedulerRecords
  rw [List.map_map]
  have h2 : (Prod.snd ∘ fun p : Nat × α => (p.1 + 1, p.2)) = Prod.snd := rfl
  rw [h2, List.enum_map_snd]

/-- **C1** counterexample: on the same two submitted work items, two
different completion orders of the concurrent fetches give
`crawl_klexikon` outputs that differ — the ID attached to an item and
the order of the records follow completion order, so they are not
invariant under it, and no submission-time ID exists. -/
theorem C1_counterexample :
    collectArticleUrls categoryOnlyFetch "https://klexikon.zum.de" 1
        "https://klexikon.zum.de/wiki/Kategorie:Klexikon-Artikel" [] 0 none =
      some (.ok ["https://klexikon.zum.de/wiki/A", "https://klexikon.zum.de/wiki/B"]) ∧
    [0, 1].Perm (List.range 2) ∧ [1, 0].Perm (List.range 2) ∧
    crawl_klexikon categoryOnlyFetch 1
        "https://klexikon.zum.de/wiki/Kategorie:Klexikon-Artikel" none [0, 1] ≠
      crawl_klexikon categoryOnlyFetch 1
        "https://klexikon.zum.de/wiki/Kategorie:Klexikon-Artikel" none [1, 0] :=
  ⟨rfl, by decide, by decide, by decide⟩

/-- **C1** (amended): the result-collection loop assigns the IDs
`1..n` sequentially in completion order; the returned record list
carries exactly those IDs in increasing order (so it is sorted by
its IDs), and its payloads are the processed results of the
submitted items in completion order — a permutation of the submitted
items' results.  The mapping from work item to ID follows the
completion order, not the submission order. -/
theorem C1_scheduler_order {α : Type} (proc : String → α) (urls : List String)
    (comp : List Nat) (hperm : comp.Perm (List.range urls.length)) :
    (schedulerRecords proc urls comp).map Prod.fst = List.range' 1 urls.length ∧
    (schedulerRecords proc urls comp).map Prod.snd =
      (comp.filterMap (fun i => urls[i]?)).map proc ∧
    ((schedulerRecords proc urls comp).map Prod.snd).Perm (urls.map proc) :=
  ⟨schedulerRecords_ids proc urls comp hperm,
   schedulerRecords_results proc urls comp,
   by rw [schedulerRecords_results]; exact completed_perm proc urls comp hperm⟩

/-- Witness for **C1**: the amended statement evaluated at two
items completed in reverse order. -/
theorem C1_scheduler_order_witness :
    (schedulerRecords (fun u => u) ["A", "B"] [1, 0]).map Prod.fst =
      List.range' 1 2 ∧
    (schedulerRecords (fun u => u) ["A", "B"] [1, 0]).map Prod.snd =
      ([1, 0].filterMap (fun i => ["A", "B"][i]?)).map (fun u => u) ∧
    ((schedulerRecords (fun u => u) ["A", "B"] [1, 0]).map Prod.snd).Perm
      (["A", "B"].map (fun u => u)) :=
  C1_scheduler_order (fun u => u) ["A", "B"] [1, 0] (by decide)

/-! ### Failure containment and the aborting category walk (C2) -/

/-- **C2** counterexample: on the fetch oracle that fails every
request, `crawl_klexikon` and `crawl_miniklexikon` do not return a
result — `get_soup` returns `None` for the first category page and
`soup.select(...)` raises `AttributeError`, aborting the run. -/
theorem C2_counterexample :
    crawl_klexikon (fun _ => none) 5
        "https://klexikon.zum.de/wiki/Kategorie:Klexikon-Artikel" none [] =
      some (.error .attributeError) ∧
    crawl_miniklexikon (fun _ => none) 5
        "https://miniklexikon.zum.de/wiki/Kategorie:Alle_Artikel" none [] =
      some (.error .attributeError) :=
  ⟨rfl, rfl⟩

/-- **C2** (amended): per-item fetch failures are contained — a
failed article fetch yields the empty fallback record, a failed book
page fetch ends the pagination loop with the text accumulated so
far, and a failed Wikijunior chapter fetch yields `[]` — but a
failed fetch of a category page makes the category walk of
`crawl_klexikon` / `crawl_miniklexikon` raise `AttributeError`,
aborting that crawl. -/
theorem C2_failure_containment (fetch : Fetch) (uj : UrlJoin) (url base : String)
    (fuel pc : Nat) (blocks fetched acc : List String) (mp : Option Nat)
    (h : fetch url = none) :
    fetchArticleKlexikon fetch url =
      [("WikiLink", .str url), ("Content", .vals []), ("Sentences", .vals [])] ∧
    fetchArticleMini fetch url =
      [("WikiLink", .str url), ("Paragraphs", .vals []), ("Sentences", .vals [])] ∧
    fetchBookLoop fetch uj (fuel + 1) url blocks fetched =
      some (bookFullText blocks, fetched ++ [url]) ∧
    extract_wikijunior_content fetch url = [] ∧
    collectArticleUrls fetch base (fuel + 1) url acc pc mp =
      some (.error .attributeError) := by
  refine ⟨?_, ?_, ?_, ?_, ?_⟩ <;>
    simp [fetchArticleKlexikon, fetchArticleMini, fetchBookLoop,
      extract_wikijunior_content, collectArticleUrls, h]

/-- Witness for **C2**: the amended statement evaluated on the
all-failing oracle at a concrete URL. -/
theorem C2_failure_containment_witness :
    fetchArticleKlexikon (fun _ => none) "u" =
      [("WikiLink", .str "u"), ("Content", .vals []), ("Sentences", .vals [])] ∧
    fetchArticleMini (fun _ => none) "u" =
      [("WikiLink", .str "u"), ("Paragraphs", .vals []), ("Sentences", .vals [])] ∧
    fetchBookLoop (fun _ => none) rawUj (3 + 1) "u" [] [] =
      some (bookFullText [], [] ++ ["u"]) ∧
    extract_wikijunior_content (fun _ => none) "u" = [] ∧
    collectArticleUrls (fun _ => none) "b" (3 + 1) "u" [] 0 none =
      some (.error .attributeError) :=
  C2_failure_containment (fun _ => none) rawUj "u" "b" 3 0 [] [] [] none rfl

/-! ### The empty-content fallback record (C3) -/

/-- **C3**: evaluating the two `_fetch_article` functions at a work
item whose fetch fails.  The Klexikon fallback record carries the key
`"Content"` — not `"Paragraphs"` as the declared wiki-style record
shape requires and as the parallel MiniKlexikon code does — so the
claimed record with empty `Paragraphs` is not produced
(`pd.DataFrame(..., columns=[..., "Paragraphs", ...])` leaves that
cell missing). -/
theorem C3_klexikon_content_key :
    fetchArticleKlexikon (fun _ => none) "https://klexikon.zum.de/wiki/Pinguin" =
      [("WikiLink", .str "https://klexikon.zum.de/wiki/Pinguin"),
       ("Content", .vals []), ("Sentences", .vals [])] ∧
    "Paragraphs" ∉
      (fetchArticleKlexikon (fun _ => none)
        "https://klexikon.zum.de/wiki/Pinguin").map Prod.fst ∧
    fetchArticleMini (fun _ => none) "https://miniklexikon.zum.de/wiki/Pinguin" =
      [("WikiLink", .str "https://miniklexikon.zum.de/wiki/Pinguin"),
       ("Paragraphs", .vals []), ("Sentences", .vals [])] := by
  decide

/-! ### Missing containers and markers (C4) -/

/-- **C4** counterexample: a book page with a single `<hr>` separator
does not yield an empty sequence — the code falls back to
`soup.get_text(" ", strip=True)` and collects the whole page text. -/
theorem C4_counterexample :
    (collectNodesList (isTag "hr") oneHrPage).length = 1 ∧
    gutenbergPageText oneHrPage = "Voller Seitentext." ∧
    gutenbergPageText oneHrPage ≠ "" := by
  decide

/-- **C4** (amended): when `extract_content` finds no main-content
container it yields the empty list; a book page with fewer than two
`<hr>` separators falls back to the whole page's text instead of
yielding nothing. -/
theorem C4_extraction_miss (doc : Doc) (m : String) (page : Doc)
    (h1 : parserDivCands doc = [])
    (h2 : (collectNodesList (isTag "hr") page).length < 2) :
    extract_content doc m = [] ∧
    gutenbergPageText page = pyStrip (docTextSpace page) := by
  constructor
  · simp [extract_content, selectParserDiv, h1]
  · unfold gutenbergPageText
    rw [if_neg (by omega)]

/-- Witness for **C4**: the amended statement at a container-less
document and the one-`<hr>` page. -/
theorem C4_extraction_miss_witness :
    extract_content noContainerDoc "mw-inputbox-centered" = [] ∧
    gutenbergPageText oneHrPage = pyStrip (docTextSpace oneHrPage) :=
  C4_extraction_miss noContainerDoc "mw-inputbox-centered" oneHrPage
    (by decide) (by decide)

/-! ### The pagination cycle guard (C5) -/

/-- **C5**: whenever the selected next link of the current page
resolves to the current page's own URL, the pagination loop stops
after that page: the result is the content accumulated up to and
including the current page, exactly one URL was fetched in this
step, and the outcome is the same for every remaining fuel (the
loop performs no further iteration). -/
theorem C5_cycle_guard (fetch : Fetch) (uj : UrlJoin) (url href : String)
    (soup0 : Doc) (fuel : Nat) (blocks fetched : List String)
    (hf : fetch url = some soup0)
    (hn : gutenbergNextHref (remove_divs_by_class soup0 "anzeige-chap") = some href)
    (hu : uj url href = url) :
    fetchBookLoop fetch uj (fuel + 1) url blocks fetched =
      some (bookFullText (blocks ++
              [gutenbergPageText (remove_divs_by_class soup0 "anzeige-chap")]),
            fetched ++ [url]) ∧
    fetch_book_content fetch uj (fuel + 1) url =
      some (bookFullText [gutenbergPageText (remove_divs_by_class soup0 "anzeige-chap")],
            [url]) := by
  constructor
  · simp [fetchBookLoop, hf, hn, hu]
  · unfold fetch_book_content
    simp [fetchBookLoop, hf, hn, hu]

/-- Witness for **C5**: a concrete page whose "weiter" link points
back to itself; the loop fetches it once and returns its content. -/
theorem C5_cycle_guard_witness :
    fetchBookLoop selfLinkFetch rawUj (3 + 1) "kap1.html" [] [] =
      some (bookFullText ([] ++
              [gutenbergPageText (remove_divs_by_class selfLinkPage "anzeige-chap")]),
            [] ++ ["kap1.html"]) ∧
    fetch_book_content selfLinkFetch rawUj (3 + 1) "kap1.html" =
      some (bookFullText
              [gutenbergPageText (remove_divs_by_class selfLinkPage "anzeige-chap")],
            ["kap1.html"]) :=
  C5_cycle_guard selfLinkFetch rawUj "kap1.html" "kap1.html" selfLinkPage 3 [] []
    rfl (by decide) rfl

/-! ### TOC parsing and self-link dedup (C8) -/

theorem parseLinks_inv (uj : UrlJoin) : ∀ fuel,
    (∀ lst base parent res, parse_links uj fuel lst base parent = some res →
      ∀ l ∈ res,
        (∀ pstr, parent = some pstr → stripFragment l.href ≠ stripFragment pstr) ∧
        NoSelfLinks l) ∧
    (∀ ns base parent res, parseLinkItems uj fuel ns base parent = some res →
      ∀ l ∈ res,
        (∀ pstr, parent = some pstr → stripFragment l.href ≠ stripFragment pstr) ∧
        NoSelfLinks l) := by
  intro fuel
  induction fuel with
  | zero =>
    constructor
    · intro lst base parent res h; exact absurd h (by simp [parse_links])
    · intro ns base parent res h; exact absurd h (by simp [parseLinkItems])
  | succ n ih =>
    constructor
    · intro lst base parent res h
      exact ih.2 _ _ _ _ h
    · intro ns base parent res h
      cases ns with
      | nil =>
        simp only [parseLinkItems, Option.some.injEq] at h
        subst h
        intro l hl
        simp at hl
      | cons nd rest =>
        simp only [parseLinkItems] at h
        split at h
        · split at h
          · exact ih.2 _ _ _ _ h
          · rename_i a hsel
            split at h
            · exact ih.2 _ _ _ _ h
            · rename_i hdedup
              split at h
              · rename_i sc rest2 hsc hrest
                rw [Option.some.injEq] at h
                subst h
                intro l hl
                rcases List.mem_cons.mp hl with hle | hlr
                · subst hle
                  constructor
                  · intro pstr hps
                    subst hps
                    simp only [Option.elim] at hdedup
                    intro hcontra
                    exact hdedup (by simpa using hcontra)
                  · refine NoSelfLinks.mk _ ?_ ?_
                    · intro c hc
                      revert hsc
                      split
                      · intro hsc
                        rw [Option.some.injEq] at hsc
                        subst hsc
                        simp at hc
                      · intro hsc
                        exact ((ih.1 _ _ _ _ hsc c hc).1 _ rfl)
                    · intro c hc
                      revert hsc
                      split
                      · intro hsc
                        rw [Option.some.injEq] at hsc
                        subst hsc
                        simp at hc
                      · intro hsc
                        exact (ih.1 _ _ _ _ hsc c hc).2
                · exact ih.2 _ _ _ _ hrest l hlr
              · exact absurd h (by simp)
        · exact ih.2 _ _ _ _ h

/-- **C8**: whenever a parent URL is supplied, every returned link's
fragment-stripped URL differs from the fragment-stripped parent URL
(items equal to the parent are excluded regardless of fragments);
and since the recursion passes each item's URL as the parent of its
nested list, no node of the returned tree has a fragment-stripped
URL equal to its parent node's. -/
theorem C8_toc_dedup (uj : UrlJoin) (fuel : Nat) (lst : Node) (base : String)
    (parent : Option String) (res : List LinkInfo)
    (h : parse_links uj fuel lst base parent = some res) :
    (∀ l ∈ res, ∀ pstr, parent = some pstr →
      stripFragment l.href ≠ stripFragment pstr) ∧
    (∀ l ∈ res, NoSelfLinks l) :=
  ⟨fun l hl => ((parseLinks_inv uj fuel).1 lst base parent res h l hl).1,
   fun l hl => ((parseLinks_inv uj fuel).1 lst base parent res h l hl).2⟩

/-- Witness for **C8**: parsing `tocListDoc` drops the `ch1#sec`
self-link and keeps `ch2`, and the resulting tree satisfies the
invariant. -/
theorem C8_toc_dedup_witness :
    (∀ l ∈ [LinkInfo.mk "Ch1" "ch1#top" none [LinkInfo.mk "Ch2" "ch2" none []]],
      ∀ pstr, (none : Option String) = some pstr →
        stripFragment l.href ≠ stripFragment pstr) ∧
    (∀ l ∈ [LinkInfo.mk "Ch1" "ch1#top" none [LinkInfo.mk "Ch2" "ch2" none []]],
      NoSelfLinks l) :=
  C8_toc_dedup rawUj 6 tocListDoc "base" none
    [LinkInfo.mk "Ch1" "ch1#top" none [LinkInfo.mk "Ch2" "ch2" none []]] rfl

/-! ### The Content Extractor walk (C6) -/

theorem selectParserDiv_eq_spec (doc : Doc) :
    selectParserDiv doc = selectParserDivSpec doc := by
  unfold selectParserDiv selectParserDivSpec
  rw [← List.filter_head?]

theorem extractChildren_spec (m : String) : (ch : NodeList) →
    extractChildren m ch =
      ((ch.toList.takeWhile (fun c => !isTagWithClass "div" m c)).filter
        isContentTag).filterMap
        (fun c => if getTextSpace c = "" then none else some (getTextSpace c))
  | .nil => rfl
  | .cons (.text s) ns => by
    have ih := extractChildren_spec m ns
    simp [extractChildren, NodeList.toList, isTagWithClass, isContentTag,
      List.takeWhile_cons, List.filter_cons, ih]
  | .cons (.elem t a ch) ns => by
    have ih := extractChildren_spec m ns
    by_cases hstop : (t == "div" && m ∈ classList a : Bool)
    · simp [extractChildren, hstop, NodeList.toList, List.takeWhile_cons,
        isTagWithClass, hstop]
    · by_cases hct : (t ∈ contentTags : Prop)
      · by_cases hemp : getTextSpace (.elem t a ch) = ""
        · simp [extractChildren, hstop, hct, hemp, NodeList.toList,
            List.takeWhile_cons, isTagWithClass, isContentTag, ih]
        · simp [extractChildren, hstop, hct, hemp, NodeList.toList,
            List.takeWhile_cons, isTagWithClass, isContentTag, ih]
      · simp [extractChildren, hstop, hct, NodeList.toList,
          List.takeWhile_cons, isTagWithClass, isContentTag, ih]

/-- **C6** counterexample: `get_text(" ", strip=True)` does not
collapse whitespace runs inside a single text fragment — a paragraph
whose text node holds a double space keeps it — and a non-`div`
child carrying the stop-marker class does not stop the walk: the
walk collects it and the children after it. -/
theorem C6_counterexample :
    extract_content doubleSpaceDoc "stop-marker" = ["Hallo  Welt."] ∧
    "Hallo  Welt." ≠ "Hallo Welt." ∧
    extract_content stopClassParagraphDoc "stop-marker" = ["x", "Nach Marker."] := by
  decide

/-- **C6** (amended): `extract_content` selects the container nested
inside `div#mw-content-text` when several candidates exist (else the
first candidate), and returns the document-ordered texts of the
container's direct heading/paragraph children — each text the
space-join of the child's stripped text fragments (whitespace inside
a fragment is preserved), empties dropped — truncated exclusively at
the first direct child that is a `div` carrying the stop-marker
class.  On the spec's example content the blocks are
`["Hallo Welt."]` and the sentences `["Hallo Welt"]`. -/
theorem C6_content_extractor (doc : Doc) (m : String) :
    extract_content doc m = extractContentSpec doc m ∧
    extract_content exampleDoc "stop-marker" = ["Hallo Welt."] ∧
    (extract_content exampleDoc "stop-marker").flatMap split_into_sentences =
      ["Hallo Welt"] := by
  refine ⟨?_, by decide, by decide⟩
  unfold extract_content extractContentSpec
  rw [selectParserDiv_eq_spec]
  cases selectParserDivSpec doc with
  | none => rfl
  | some n => exact extractChildren_spec m n.children

/-! ### Truncation after a marker (C7) -/

theorem existsNode_of_p (p : Node → Bool) (n : Node) (hp : p n = true) :
    existsNode p n = true := by
  cases n <;> simp [existsNode, hp]

theorem existsNode_eq_children (p : Node → Bool) (n : Node) (hp : p n = false) :
    existsNode p n = existsNodeList p n.children := by
  cases n <;> simp [existsNode, Node.children, hp, existsNodeList]

mutual

theorem findTNode_none_iff (p : Node → Bool) : (n : Node) →
    (findTNode p n = none ↔ existsNodeList p n.children = false)
  | .text s => by
    simp [findTNode, Node.children, existsNodeList]
  | .elem t a ch => by
    simpa [findTNode, Node.children] using findTList_none_iff p ch

theorem findTList_none_iff (p : Node → Bool) : (ns : NodeList) →
    (findTList p ns = none ↔ existsNodeList p ns = false)
  | .nil => by simp [findTList, existsNodeList]
  | .cons n ns => by
    have ih1 := findTNode_none_iff p n
    have ih2 := findTList_none_iff p ns
    by_cases hp : p n
    · have h1 : findTList p (.cons n ns) = some .stop := by
        simp [findTList, hp]
      have h2 : existsNodeList p (.cons n ns) = true := by
        simp [existsNodeList, existsNode_of_p p n hp]
      simp [h1, h2]
    · rw [Bool.not_eq_true] at hp
      cases hfn : findTNode p n with
      | some t =>
        have hex : existsNode p n = true := by
          rw [existsNode_eq_children p n hp]
          by_contra hc
          rw [Bool.not_eq_true] at hc
          rw [← ih1] at hc
          simp [hfn] at hc
        have h1 : findTList p (.cons n ns) = some (.descend t) := by
          simp [findTList, hp, hfn]
        have h2 : existsNodeList p (.cons n ns) = true := by
          simp [existsNodeList, hex]
        simp [h1, h2]
      | none =>
        have hexn : existsNode p n = false := by
          rw [existsNode_eq_children p n hp]
          exact ih1.mp hfn
        have h1 : findTList p (.cons n ns) = (findTList p ns).map .step := by
          simp [findTList, hp, hfn]
        rw [h1]
        constructor
        · intro h
          have hns : findTList p ns = none := by
            cases hfl : findTList p ns
            · rfl
            · rw [hfl] at h; simp at h
          simp [existsNodeList, hexn, ih2.mp hns]
        · intro h
          simp only [existsNodeList, hexn, Bool.false_or] at h
          simp [ih2.mpr h]

end

mutual

theorem removeAfterNode_eq (p : Node → Bool) : (n : Node) →
    removeAfterNode p n =
      (match findTNode p n with | none => n | some t => truncAtNode n t)
  | .text s => by simp [removeAfterNode, findTNode]
  | .elem t a ch => by
    have ih := removeAfterList_eq p ch
    simp only [removeAfterNode, findTNode]
    cases h : findTList p ch with
    | none => rw [h] at ih; simpa using ih
    | some tp => rw [h] at ih; simp [truncAtNode, ih]

theorem removeAfterList_eq (p : Node → Bool) : (ns : NodeList) →
    removeAfterList p ns =
      (match findTList p ns with | none => ns | some t => truncAtList ns t)
  | .nil => by simp [removeAfterList, findTList]
  | .cons n ns => by
    have ihn := removeAfterNode_eq p n
    have ihl := removeAfterList_eq p ns
    by_cases hp : p n
    · simp [removeAfterList, findTList, hp, truncAtList]
    · rw [Bool.not_eq_true] at hp
      by_cases hex : existsNode p n = true
      · have hch : existsNodeList p n.children = true := by
          rwa [existsNode_eq_children p n hp] at hex
        have hfn : ∃ tp, findTNode p n = some tp := by
          cases hfn2 : findTNode p n
          · rw [(findTNode_none_iff p n).mp hfn2] at hch; simp at hch
          · exact ⟨_, rfl⟩
        obtain ⟨tp, htp⟩ := hfn
        rw [htp] at ihn
        simp [removeAfterList, hp, hex, findTList, htp, truncAtList, ihn]
      · rw [Bool.not_eq_true] at hex
        have hfn : findTNode p n = none := by
          rw [findTNode_none_iff p n, ← existsNode_eq_children p n hp]
          exact hex
        have h1 : findTList p (.cons n ns) = (findTList p ns).map .step := by
          simp [findTList, hp, hfn]
        rw [h1]
        simp only [removeAfterList, hp, hex, Bool.false_eq_true, if_false]
        cases hfl : findTList p ns with
        | none => rw [hfl] at ihl; simpa [truncAtList] using ihl
        | some t2 => rw [hfl] at ihl; simp [truncAtList, ihl]

end

/-- **C7** counterexample: in `nestedMarkerDoc` no direct child of
the document satisfies the `div.m` predicate, yet
`remove_after_div_class` is not a no-op — `soup.find` locates the
nested marker and removes it and its siblings one level down. -/
theorem C7_counterexample :
    (∀ n ∈ nestedMarkerDoc.toList, isTagWithClass "div" "m" n = false) ∧
    remove_after_div_class nestedMarkerDoc "m" =
      nodes [.elem "div" [] .nil, .elem "p" [] (nodes [.text "outer"])] ∧
    remove_after_div_class nestedMarkerDoc "m" ≠ nestedMarkerDoc := by
  decide

/-- **C7** (amended): `remove_after_div_class` / `remove_after_hr`
locate the first node satisfying the predicate anywhere in the
document (pre-order), remove that node and every later sibling at
its own level — each wholesale with all its descendants, as the
surgical truncation `truncAtList` at the located point, which leaves
every ancestor, every preceding sibling and every sibling of an
ancestor untouched — and are a no-op exactly when no node of the
tree satisfies the predicate. -/
theorem C7_truncate_after (doc : Doc) (cls : String) :
    remove_after_div_class doc cls =
      (match findTList (isTagWithClass "div" cls) doc with
       | none => doc
       | some t => truncAtList doc t) ∧
    remove_after_hr doc =
      (match findTList (isTag "hr") doc with
       | none => doc
       | some t => truncAtList doc t) ∧
    (findTList (isTagWithClass "div" cls) doc = none ↔
      existsNodeList (isTagWithClass "div" cls) doc = false) ∧
    (findTList (isTag "hr") doc = none ↔
      existsNodeList (isTag "hr") doc = false) :=
  ⟨removeAfterList_eq _ doc, removeAfterList_eq _ doc,
   findTList_none_iff _ doc, findTList_none_iff _ doc⟩

/-! ### Two-page pagination cycles are not detected (C10) -/

theorem cycle_loop_no_result (fetch : Fetch) (uj : UrlJoin)
    (urlA urlB hrefA hrefB : String) (soupA soupB : Doc)
    (hne : urlA ≠ urlB)
    (hfA : fetch urlA = some soupA) (hfB : fetch urlB = some soupB)
    (hnA : gutenbergNextHref (remove_divs_by_class soupA "anzeige-chap") = some hrefA)
    (hnB : gutenbergNextHref (remove_divs_by_class soupB "anzeige-chap") = some hrefB)
    (huA : uj urlA hrefA = urlB) (huB : uj urlB hrefB = urlA) :
    ∀ fuel blocks fetched,
      fetchBookLoop fetch uj fuel urlA blocks fetched = none ∧
      fetchBookLoop fetch uj fuel urlB blocks fetched = none := by
  intro fuel
  induction fuel with
  | zero => intro blocks fetched; exact ⟨rfl, rfl⟩
  | succ n ih =>
    intro blocks fetched
    constructor
    · have hstep : fetchBookLoop fetch uj (n + 1) urlA blocks fetched =
          fetchBookLoop fetch uj n urlB
            (blocks ++ [gutenbergPageText (remove_divs_by_class soupA "anzeige-chap")])
            (fetched ++ [urlA]) := by
        simp [fetchBookLoop, hfA, hnA, huA, hne.symm]
      rw [hstep]
      exact (ih _ _).2
    · have hstep : fetchBookLoop fetch uj (n + 1) urlB blocks fetched =
          fetchBookLoop fetch uj n urlA
            (blocks ++ [gutenbergPageText (remove_divs_by_class soupB "anzeige-chap")])
            (fetched ++ [urlB]) := by
        simp [fetchBookLoop, hfB, hnB, huB, hne]
      rw [hstep]
      exact (ih _ _).1

/-- **C10**: for every fetch oracle, resolver and pair of distinct
pages whose fetches succeed, where page A's selected "weiter" link
resolves to page B and page B's resolves back to page A,
`fetch_book_content` never terminates from either page — the cycle
guard compares only against the current URL, so for every amount of
fuel the loop is still running. -/
theorem C10_two_cycle_diverges (fetch : Fetch) (uj : UrlJoin)
    (urlA urlB hrefA hrefB : String) (soupA soupB : Doc)
    (hne : urlA ≠ urlB)
    (hfA : fetch urlA = some soupA) (hfB : fetch urlB = some soupB)
    (hnA : gutenbergNextHref (remove_divs_by_class soupA "anzeige-chap") = some hrefA)
    (hnB : gutenbergNextHref (remove_divs_by_class soupB "anzeige-chap") = some hrefB)
    (huA : uj urlA hrefA = urlB) (huB : uj urlB hrefB = urlA) :
    ∀ fuel,
      fetch_book_content fetch uj fuel urlA = none ∧
      fetch_book_content fetch uj fuel urlB = none :=
  fun fuel =>
    ⟨(cycle_loop_no_result fetch uj urlA urlB hrefA hrefB soupA soupB hne
        hfA hfB hnA hnB huA huB fuel [] []).1,
     (cycle_loop_no_result fetch uj urlA urlB hrefA hrefB soupA soupB hne
        hfA hfB hnA hnB huA huB fuel [] []).2⟩

/-- Witness for **C10**: the concrete two-page cycle oracle
`cycleFetch` satisfies every hypothesis, and the loop has no result
at a concrete fuel. -/
theorem C10_two_cycle_diverges_witness :
    fetch_book_content cycleFetch cycleUj 7 "A.html" = none ∧
    fetch_book_content cycleFetch cycleUj 7 "B.html" = none :=
  C10_two_cycle_diverges cycleFetch cycleUj "A.html" "B.html" "B.html" "A.html"
    cyclePageA cyclePageB (by decide) rfl rfl (by decide) (by decide) rfl rfl 7

/-! ### The Sentence Segmenter (C9) -/


theorem isTerm_not_ws {c : Char} (h : isTerm c = true) : pyWs c = false := by
  simp only [isTerm, Bool.or_eq_true, decide_eq_true_eq] at h
  rcases h with (h | h) | h <;> subst h <;> rfl

theorem noBoundary_cons_cons {c d : Char} {cs : List Char} :
    noBoundary (c :: d :: cs) = true ↔
      ((isTerm c && pyWs d) = false ∧ noBoundary (d :: cs) = true) := by
  show (!(isTerm c && pyWs d) && noBoundary (d :: cs)) = true ↔ _
  rw [Bool.and_eq_true, Bool.not_eq_true']

theorem noBoundary_tail {c : Char} {cs : List Char}
    (h : noBoundary (c :: cs) = true) : noBoundary cs = true := by
  cases cs with
  | nil => rfl
  | cons d rest => exact (noBoundary_cons_cons.mp h).2

theorem noBoundary_append {xs : List Char} : (ys : List Char) →
    noBoundary xs = true → noBoundary ys = true → noBoundary (xs ++ ys) = true := by
  induction xs with
  | nil => intro ys _ hy; simpa using hy
  | cons x xs ih =>
    intro ys hx hy
    cases xs with
    | nil =>
      have hxt : isTerm x = false := by simpa [noBoundary] using hx
      cases ys with
      | nil => simpa [noBoundary] using hx
      | cons y ys2 =>
        rw [List.cons_append, List.nil_append, noBoundary_cons_cons]
        exact ⟨by simp [hxt], hy⟩
    | cons x2 xs2 =>
      obtain ⟨h1, h2⟩ := noBoundary_cons_cons.mp hx
      rw [List.cons_append, List.cons_append, noBoundary_cons_cons]
      exact ⟨h1, by simpa using ih ys h2 hy⟩

theorem noBoundary_termrun : (rs : List Char) → (∀ r ∈ rs, isTerm r = true) →
    ∀ (c : Char), isTerm c = false → pyWs c = false →
      noBoundary (rs ++ [c]) = true
  | [], _ => by intro c hc _; simpa [noBoundary] using hc
  | r :: rs, hall => by
    intro c hc hw
    cases rs with
    | nil => simp [noBoundary, isTerm_not_ws (hall r (by simp)), hc, hw]
    | cons r2 rs2 =>
      show noBoundary (r :: r2 :: (rs2 ++ [c])) = true
      rw [noBoundary_cons_cons]
      refine ⟨by simp [isTerm_not_ws (hall r2 (by simp))], ?_⟩
      exact noBoundary_termrun (r2 :: rs2) (fun x hx => hall x (by simp [hx])) c hc hw

theorem allterm_not_noBoundary : (cs : List Char) → (∀ c ∈ cs, isTerm c = true) →
    cs ≠ [] → noBoundary cs = false
  | [], _, h => absurd rfl h
  | [c], hall, _ => by simp [noBoundary, hall c (by simp)]
  | c :: d :: rest, hall, _ => by
    have := allterm_not_noBoundary (d :: rest) (fun x hx => hall x (by simp [hx]))
      (by simp)
    simp [noBoundary, this]

theorem dropWhile_head_false {q : Char → Bool} : (cs : List Char) → ∀ (d : Char) (r : List Char),
    cs.dropWhile q = d :: r → q d = false
  | [] => by intro d r h; simp [List.dropWhile] at h
  | c :: cs => by
    intro d r h
    rw [List.dropWhile_cons] at h
    by_cases hq : q c = true
    · rw [if_pos hq] at h; exact dropWhile_head_false cs d r h
    · rw [Bool.not_eq_true] at hq
      rw [if_neg (by simp [hq])] at h
      cases h; exact hq

theorem takeWhile_mem_true {q : Char → Bool} : (cs : List Char) → ∀ (c : Char),
    c ∈ cs.takeWhile q → q c = true
  | [] => by intro c h; simp [List.takeWhile] at h
  | x :: cs => by
    intro c h
    rw [List.takeWhile_cons] at h
    by_cases hq : q x = true
    · rw [if_pos hq] at h
      rcases List.mem_cons.mp h with h | h
      · subst h; exact hq
      · exact takeWhile_mem_true cs c h
    · rw [if_neg (by simpa using hq)] at h
      simp at h

theorem noBoundary_dropWhile {q : Char → Bool} : (cs : List Char) →
    noBoundary cs = true → noBoundary (cs.dropWhile q) = true
  | [] => by intro h; simpa using h
  | c :: cs => by
    intro h
    rw [List.dropWhile_cons]
    by_cases hq : q c = true
    · rw [if_pos hq]; exact noBoundary_dropWhile cs (noBoundary_tail h)
    · rw [if_neg (by simpa using hq)]; exact h



theorem dropTrailWs_nil_allws : (cs : List Char) → dropTrailWs cs = [] →
    ∀ c ∈ cs, pyWs c = true
  | [] => by intro _ c hc; simp at hc
  | c :: cs => by
    intro h x hx
    rw [dropTrailWs] at h
    cases hdt : dropTrailWs cs with
    | nil =>
      rw [hdt] at h
      by_cases hw : pyWs c = true
      · rcases List.mem_cons.mp hx with hx | hx
        · subst hx; exact hw
        · exact dropTrailWs_nil_allws cs hdt x hx
      · rw [if_neg (by simpa using hw)] at h; cases h
    | cons d r => rw [hdt] at h; cases h

theorem dropTrailWs_head : (cs : List Char) → ∀ (d : Char) (r : List Char),
    dropTrailWs cs = d :: r → ∃ t, cs = d :: t
  | [] => by intro d r h; cases h
  | c :: cs => by
    intro d r h
    rw [dropTrailWs] at h
    cases hdt : dropTrailWs cs with
    | nil =>
      rw [hdt] at h
      by_cases hw : pyWs c = true
      · rw [if_pos hw] at h; cases h
      · rw [if_neg (by simpa using hw)] at h
        cases h; exact ⟨cs, rfl⟩
    | cons d2 r2 =>
      rw [hdt] at h
      cases h; exact ⟨cs, rfl⟩

theorem dropTrailWs_last : (cs : List Char) → ∀ (d : Char) (r : List Char),
    dropTrailWs cs = d :: r → pyWs (r.getLastD d) = false
  | [] => by intro d r h; cases h
  | c :: cs => by
    intro d r h
    rw [dropTrailWs] at h
    cases hdt : dropTrailWs cs with
    | nil =>
      rw [hdt] at h
      by_cases hw : pyWs c = true
      · rw [if_pos hw] at h; cases h
      · rw [if_neg (by simpa using hw)] at h
        cases h
        simpa using hw
    | cons d2 r2 =>
      rw [hdt] at h
      cases h
      rw [List.getLastD_cons]
      exact dropTrailWs_last cs d2 r2 hdt

theorem noBoundary_dropTrailWs : (cs : List Char) → noBoundary cs = true →
    noBoundary (dropTrailWs cs) = true
  | [] => by intro h; simpa using h
  | c :: cs => by
    intro h
    rw [dropTrailWs]
    cases hdt : dropTrailWs cs with
    | nil =>
      by_cases hw : pyWs c = true
      · simp [hw, noBoundary]
      · rw [if_neg (by simpa using hw)]
        cases cs with
        | nil => simpa [noBoundary] using h
        | cons e cs2 =>
          have hew : pyWs e = true := dropTrailWs_nil_allws _ hdt e (by simp)
          have h1 := (noBoundary_cons_cons.mp h).1
          have : isTerm c = false := by
            by_contra hct
            rw [Bool.not_eq_false] at hct
            simp [hct, hew] at h1
          simp [noBoundary, this]
    | cons d2 r2 =>
      have ih := noBoundary_dropTrailWs cs (noBoundary_tail h)
      rw [hdt] at ih
      obtain ⟨t, ht⟩ := dropTrailWs_head cs d2 r2 hdt
      rw [noBoundary_cons_cons]
      refine ⟨?_, ih⟩
      subst ht
      exact (noBoundary_cons_cons.mp h).1

theorem dropWhile_nodrop {q : Char → Bool} {c : Char} {cs : List Char}
    (h : q c = false) : (c :: cs).dropWhile q = c :: cs := by
  rw [List.dropWhile_cons, if_neg (by simp [h])]

theorem dropTrailWs_nodrop : (cs : List Char) → ∀ (c : Char),
    pyWs (cs.getLastD c) = false → dropTrailWs (c :: cs) = c :: cs
  | [] => by
    intro c h
    rw [dropTrailWs, dropTrailWs, if_neg]
    simpa using h
  | d :: cs => by
    intro c h
    rw [List.getLastD_cons] at h
    have ih := dropTrailWs_nodrop cs d h
    rw [dropTrailWs, ih]

theorem pyStrip_good_id {s : String} (h : goodSentence s = true) : pyStrip s = s := by
  unfold goodSentence at h
  cases hd : s.data with
  | nil => rw [hd] at h; simp at h
  | cons c cs =>
    rw [hd] at h
    simp only [Bool.and_eq_true, Bool.not_eq_true'] at h
    obtain ⟨⟨h1, h2⟩, _⟩ := h
    have : pyStripChars s.data = s.data := by
      rw [hd]
      unfold pyStripChars
      rw [dropWhile_nodrop h1, dropTrailWs_nodrop cs c h2]
    unfold pyStrip
    rw [this]



theorem sentScan_raw_noBoundary : (cs : List Char) → (st : ScanState) → (acc : List Char) →
    noBoundary acc.reverse = true →
    (∀ run, st = .afterTerm run → ∀ r ∈ run, isTerm r = true) →
    ∀ s ∈ sentScan cs st acc, noBoundary s.data = true
  | [], .normal, acc => by
    intro hacc _ s hs
    simp only [sentScan, List.mem_singleton] at hs
    subst hs; exact hacc
  | [], .afterTerm run, acc => by
    intro hacc _ s hs
    simp only [sentScan, List.mem_cons, List.mem_singleton] at hs
    rcases hs with hs | hs | hs
    · subst hs; exact hacc
    · subst hs; rfl
    · simp at hs
  | [], .afterWs, acc => by
    intro hacc _ s hs
    simp only [sentScan, List.mem_singleton] at hs
    subst hs; exact hacc
  | c :: cs, .normal, acc => by
    intro hacc hrun s hs
    rw [sentScan] at hs
    by_cases hc : isTerm c = true
    · rw [if_pos hc] at hs
      exact sentScan_raw_noBoundary cs (.afterTerm [c]) acc hacc
        (fun run h => by cases h; intro r hr; rw [List.mem_singleton] at hr; subst hr; exact hc)
        s hs
    · rw [Bool.not_eq_true] at hc
      rw [if_neg (by simp [hc])] at hs
      refine sentScan_raw_noBoundary cs .normal (c :: acc) ?_ (fun run h => by cases h) s hs
      rw [List.reverse_cons]
      exact noBoundary_append [c] hacc (by simp [noBoundary, hc])
  | c :: cs, .afterTerm run, acc => by
    intro hacc hrun s hs
    have hrunall : ∀ r ∈ run, isTerm r = true := hrun run rfl
    rw [sentScan] at hs
    by_cases hc : isTerm c = true
    · rw [if_pos hc] at hs
      refine sentScan_raw_noBoundary cs (.afterTerm (c :: run)) acc hacc ?_ s hs
      intro run2 h2
      cases h2
      intro r hr
      rcases List.mem_cons.mp hr with hr | hr
      · subst hr; exact hc
      · exact hrunall r hr
    · rw [Bool.not_eq_true] at hc
      rw [if_neg (by simp [hc])] at hs
      by_cases hw : pyWs c = true
      · rw [if_pos hw] at hs
        rcases List.mem_cons.mp hs with hs | hs
        · subst hs; exact hacc
        · exact sentScan_raw_noBoundary cs .afterWs [] (by simp [noBoundary])
            (fun run2 h2 => by cases h2) s hs
      · rw [Bool.not_eq_true] at hw
        rw [if_neg (by simp [hw])] at hs
        refine sentScan_raw_noBoundary cs .normal (c :: (run ++ acc)) ?_
          (fun run2 h2 => by cases h2) s hs
        rw [List.reverse_cons, List.reverse_append]
        have h1 : noBoundary (run.reverse ++ [c]) = true :=
          noBoundary_termrun run.reverse
            (fun r hr => hrunall r (List.mem_reverse.mp hr)) c hc hw
        have h2 := noBoundary_append (run.reverse ++ [c]) hacc h1
        simpa [List.append_assoc] using h2
  | c :: cs, .afterWs, acc => by
    intro hacc hrun s hs
    rw [sentScan] at hs
    by_cases hc : isTerm c = true
    · rw [if_pos hc] at hs
      exact sentScan_raw_noBoundary cs (.afterTerm [c]) acc hacc
        (fun run h => by cases h; intro r hr; rw [List.mem_singleton] at hr; subst hr; exact hc)
        s hs
    · rw [Bool.not_eq_true] at hc
      rw [if_neg (by simp [hc])] at hs
      by_cases hw : pyWs c = true
      · rw [if_pos hw] at hs
        exact sentScan_raw_noBoundary cs .afterWs acc hacc (fun run h => by cases h) s hs
      · rw [Bool.not_eq_true] at hw
        rw [if_neg (by simp [hw])] at hs
        refine sentScan_raw_noBoundary cs .normal (c :: acc) ?_ (fun run h => by cases h) s hs
        rw [List.reverse_cons]
        exact noBoundary_append [c] hacc (by simp [noBoundary, hc])

theorem split_into_sentences_good (p : String) :
    ∀ s ∈ split_into_sentences p, goodSentence s = true := by
  intro s hs
  unfold split_into_sentences at hs
  rw [List.mem_filter] at hs
  obtain ⟨hmem, hne⟩ := hs
  rw [List.mem_map] at hmem
  obtain ⟨raw, hraw, hstrip⟩ := hmem
  have hnb : noBoundary raw.data = true :=
    sentScan_raw_noBoundary p.data .normal [] (by simp [noBoundary])
      (fun run h => by cases h) raw hraw
  subst hstrip
  have hne2 : pyStripChars raw.data ≠ [] := by
    intro hnil
    apply (by simpa using hne : ¬pyStrip raw = "")
    unfold pyStrip
    rw [hnil]
  unfold pyStrip
  unfold goodSentence
  cases hd : pyStripChars raw.data with
  | nil => exact absurd hd hne2
  | cons c cs =>
    simp only
    obtain ⟨t, ht⟩ := dropTrailWs_head _ c cs (by unfold pyStripChars at hd; exact hd)
    have hc : pyWs c = false := dropWhile_head_false raw.data c t ht
    have hlast : pyWs (cs.getLastD c) = false :=
      dropTrailWs_last _ c cs (by unfold pyStripChars at hd; exact hd)
    have hnb2 : noBoundary (c :: cs) = true := by
      rw [← hd]
      exact noBoundary_dropTrailWs _ (noBoundary_dropWhile raw.data hnb)
    rw [List.getLastD_eq_getLast?] at hlast
    simp [hc, hlast, hnb2]



theorem sentScan_literal_run : (rs : List Char) → (∀ r ∈ rs, isTerm r = true) →
    ∀ (d : Char) (rest run acc : List Char), isTerm d = false → pyWs d = false →
    sentScan (rs ++ d :: rest) (.afterTerm run) acc =
      sentScan rest .normal (d :: (rs.reverse ++ run ++ acc))
  | [], _ => by
    intro d rest run acc hd hw
    rw [List.nil_append, sentScan, if_neg (by simp [hd]), if_neg (by simp [hw])]
    simp
  | r :: rs, hall => by
    intro d rest run acc hd hw
    rw [List.cons_append, sentScan, if_pos (hall r (by simp))]
    rw [sentScan_literal_run rs (fun x hx => hall x (by simp [hx])) d rest (r :: run) acc hd hw]
    simp

theorem sentScan_sep : (ts : List Char) → (∀ t ∈ ts, isTerm t = true) →
    ∀ (more run acc : List Char),
    sentScan (ts ++ ' ' :: more) (.afterTerm run) acc =
      ⟨acc.reverse⟩ :: sentScan more .afterWs []
  | [], _ => by
    intro more run acc
    rw [List.nil_append, sentScan, if_neg (by simp [isTerm]), if_pos (by rfl)]
  | t :: ts, hall => by
    intro more run acc
    rw [List.cons_append, sentScan, if_pos (hall t (by simp))]
    exact sentScan_sep ts (fun x hx => hall x (by simp [hx])) more (t :: run) acc

theorem sentScan_term_end : (ts : List Char) → (∀ t ∈ ts, isTerm t = true) →
    ∀ (run acc : List Char),
    sentScan ts (.afterTerm run) acc = [⟨acc.reverse⟩, ""]
  | [], _ => by intro run acc; rw [sentScan]
  | t :: ts, hall => by
    intro run acc
    rw [sentScan, if_pos (hall t (by simp))]
    exact sentScan_term_end ts (fun x hx => hall x (by simp [hx])) (t :: run) acc

theorem good_decompose {x : Char} {xs : List Char}
    (hx : isTerm x = true) (h : noBoundary (x :: xs) = true) :
    ∃ rs d rest, xs = rs ++ d :: rest ∧ (∀ r ∈ rs, isTerm r = true) ∧
      isTerm d = false ∧ pyWs d = false ∧ noBoundary rest = true ∧
      rest.length < xs.length := by
  have hne : xs.dropWhile isTerm ≠ [] := by
    intro hnil
    have hall : ∀ c ∈ x :: xs, isTerm c = true := by
      intro c hc
      rcases List.mem_cons.mp hc with hc | hc
      · subst hc; exact hx
      · have : xs = xs.takeWhile isTerm := by
          conv_lhs => rw [← List.takeWhile_append_dropWhile (p := isTerm) (l := xs)]
          rw [hnil, List.append_nil]
        rw [this] at hc
        exact takeWhile_mem_true xs c hc
    have := allterm_not_noBoundary (x :: xs) hall (by simp)
    rw [this] at h
    cases h
  obtain ⟨d, rest, hdr⟩ : ∃ d rest, xs.dropWhile isTerm = d :: rest := by
    cases hdt : xs.dropWhile isTerm with
    | nil => exact absurd hdt hne
    | cons d rest => exact ⟨d, rest, rfl⟩
  refine ⟨xs.takeWhile isTerm, d, rest, ?_, ?_, ?_, ?_, ?_, ?_⟩
  · rw [← hdr, List.takeWhile_append_dropWhile]
  · exact fun r hr => takeWhile_mem_true xs r hr
  · exact dropWhile_head_false xs d rest hdr
  · -- pyWs d = false from noBoundary walking through the term run
    have key : ∀ (rs : List Char) (y : Char), isTerm y = true →
        (∀ r ∈ rs, isTerm r = true) →
        noBoundary (y :: (rs ++ d :: rest)) = true → pyWs d = false := by
      intro rs
      induction rs with
      | nil =>
        intro y hy _ hnb
        have := (noBoundary_cons_cons.mp hnb).1
        rcases Bool.and_eq_false_iff.mp this with h1 | h1
        · rw [hy] at h1; cases h1
        · exact h1
      | cons r2 rs2 ih =>
        intro y hy hall hnb
        refine ih r2 (hall r2 (by simp)) (fun z hz => hall z (by simp [hz])) ?_
        exact (noBoundary_cons_cons.mp hnb).2
    refine key (xs.takeWhile isTerm) x hx (fun r hr => takeWhile_mem_true xs r hr) ?_
    rw [← hdr, List.takeWhile_append_dropWhile]
    exact h
  · have h1 : noBoundary xs = true := noBoundary_tail h
    have h2 := noBoundary_dropWhile (q := isTerm) xs h1
    rw [hdr] at h2
    exact noBoundary_tail h2
  · have : xs.length = (xs.takeWhile isTerm).length + (d :: rest).length := by
      rw [← List.length_append, ← hdr, List.takeWhile_append_dropWhile]
    simp only [List.length_cons] at this
    omega

theorem sentScan_chain : ∀ (n : Nat) (xs : List Char), xs.length ≤ n →
    noBoundary xs = true → ∀ (suffix acc : List Char),
    sentScan (xs ++ suffix) .normal acc =
      sentScan suffix .normal (xs.reverse ++ acc) := by
  intro n
  induction n with
  | zero =>
    intro xs hlen _ suffix acc
    have : xs = [] := List.length_eq_zero.mp (Nat.le_zero.mp hlen)
    subst this
    simp
  | succ n ih =>
    intro xs hlen hnb suffix acc
    cases xs with
    | nil => simp
    | cons x xs2 =>
      by_cases hx : isTerm x = true
      · obtain ⟨rs, d, rest, hdecomp, hrs, hd, hw, hnbrest, hlt⟩ :=
          good_decompose hx hnb
        subst hdecomp
        rw [List.cons_append, sentScan, if_pos hx]
        rw [List.append_assoc, List.cons_append]
        rw [sentScan_literal_run rs hrs d (rest ++ suffix) [x] acc hd hw]
        rw [ih rest (by simp only [List.length_cons] at hlen; omega) hnbrest suffix _]
        congr 1
        simp [List.append_assoc]
      · rw [Bool.not_eq_true] at hx
        rw [List.cons_append, sentScan, if_neg (by simp [hx])]
        rw [ih xs2 (by simp only [List.length_cons] at hlen; omega)
          (noBoundary_tail hnb) suffix (x :: acc)]
        congr 1
        simp

theorem sentScan_afterWs_normal (c : Char) (cs acc : List Char) (hw : pyWs c = false) :
    sentScan (c :: cs) .afterWs acc = sentScan (c :: cs) .normal acc := by
  by_cases hc : isTerm c = true
  · simp [sentScan, hc]
  · rw [Bool.not_eq_true] at hc
    simp [sentScan, hc, hw]



theorem sentScan_normal_term {c : Char} (hc : isTerm c = true) (cs acc : List Char) :
    sentScan (c :: cs) .normal acc = sentScan cs (.afterTerm [c]) acc := by
  simp [sentScan, hc]

theorem goodSentence_parts {s : String} (h : goodSentence s = true) :
    s.data ≠ [] ∧ noBoundary s.data = true ∧
    (∀ c t, s.data = c :: t → pyWs c = false) := by
  unfold goodSentence at h
  cases hd : s.data with
  | nil => rw [hd] at h; cases h
  | cons c cs =>
    rw [hd] at h
    simp only [Bool.and_eq_true, Bool.not_eq_true'] at h
    obtain ⟨⟨h1, _⟩, h3⟩ := h
    exact ⟨by simp, h3, fun c2 t2 ht2 => by
      cases ht2; exact h1⟩

theorem goodSentence_ne_empty {s : String} (h : goodSentence s = true) : s ≠ "" := by
  intro he
  subst he
  cases h

theorem isTermRun_parts {t : String} (h : isTermRun t = true) :
    t.data ≠ [] ∧ ∀ c ∈ t.data, isTerm c = true := by
  unfold isTermRun at h
  simp only [Bool.and_eq_true, Bool.not_eq_true', List.all_eq_true] at h
  obtain ⟨h1, h2⟩ := h
  refine ⟨?_, h2⟩
  intro hnil
  rw [hnil] at h1
  simp at h1

theorem rejoin_cons_data : ∀ (s2 : String) (ss ts2 : List String), ts2 ≠ [] →
    ∃ tail, (rejoin (s2 :: ss) ts2).data = s2.data ++ tail := by
  intro s2 ss ts2 hne
  cases ts2 with
  | nil => exact absurd rfl hne
  | cons t ts3 =>
    cases ss with
    | nil => exact ⟨t.data, rfl⟩
    | cons s3 ss3 =>
      refine ⟨t.data ++ ' ' :: (rejoin (s3 :: ss3) ts3).data, ?_⟩
      show (s2 ++ t ++ " " ++ rejoin (s3 :: ss3) ts3).data = _
      simp [List.append_assoc]

theorem split_rejoin : ∀ (ss ts : List String),
    (∀ s ∈ ss, goodSentence s = true) → (∀ t ∈ ts, isTermRun t = true) →
    ss.length = ts.length →
    split_into_sentences (rejoin ss ts) = ss := by
  intro ss
  induction ss with
  | nil =>
    intro ts _ _ hlen
    have : ts = [] := List.length_eq_zero.mp hlen.symm
    subst this
    rfl
  | cons s ss ih =>
    intro ts hs hts hlen
    cases ts with
    | nil => simp at hlen
    | cons t ts2 =>
      have hsg := hs s (by simp)
      obtain ⟨hsne, hsnb, hshead⟩ := goodSentence_parts hsg
      obtain ⟨htne, htall⟩ := isTermRun_parts (hts t (by simp))
      obtain ⟨t0, trest, htd⟩ : ∃ t0 trest, t.data = t0 :: trest := by
        cases htd : t.data with
        | nil => exact absurd htd htne
        | cons t0 trest => exact ⟨t0, trest, rfl⟩
      cases ss with
      | nil =>
        show split_into_sentences (s ++ t) = [s]
        unfold split_into_sentences
        have hdata : (s ++ t).data = s.data ++ t.data := rfl
        rw [hdata,
          sentScan_chain s.data.length s.data le_rfl hsnb t.data [], htd,
          sentScan_normal_term (htall t0 (by rw [htd]; simp))]
        rw [sentScan_term_end trest
          (fun x hx => htall x (by rw [htd]; simp [hx])) [t0] (s.data.reverse ++ [])]
        have he : (⟨(s.data.reverse ++ []).reverse⟩ : String) = s := by
          simp
        rw [he]
        simp only [List.map_cons, List.map_nil, List.filter_cons, List.filter_nil]
        rw [pyStrip_good_id hsg]
        have h1 : pyStrip "" = "" := rfl
        rw [h1]
        simp [goodSentence_ne_empty hsg]
      | cons s2 ss2 =>
        show split_into_sentences (s ++ t ++ " " ++ rejoin (s2 :: ss2) ts2) = _
        have hlen2 : (s2 :: ss2).length = ts2.length := by
          simpa using hlen
        have hts2ne : ts2 ≠ [] := by
          intro hn; subst hn; simp at hlen2
        obtain ⟨tail, htail⟩ := rejoin_cons_data s2 ss2 ts2 hts2ne
        have hs2g := hs s2 (by simp)
        obtain ⟨hs2ne, _, hs2head⟩ := goodSentence_parts hs2g
        obtain ⟨c2, u2, hs2d⟩ : ∃ c2 u2, s2.data = c2 :: u2 := by
          cases hsd : s2.data with
          | nil => exact absurd hsd hs2ne
          | cons c2 u2 => exact ⟨c2, u2, rfl⟩
        unfold split_into_sentences
        have hdata : (s ++ t ++ " " ++ rejoin (s2 :: ss2) ts2).data =
            s.data ++ (t.data ++ ' ' :: (rejoin (s2 :: ss2) ts2).data) := by
          show (s.data ++ t.data ++ (' ' :: []) ++ _) = _
          simp [List.append_assoc]
        rw [hdata,
          sentScan_chain s.data.length s.data le_rfl hsnb _ [], htd,
          List.cons_append,
          sentScan_normal_term (htall t0 (by rw [htd]; simp))]
        rw [sentScan_sep trest
          (fun x hx => htall x (by rw [htd]; simp [hx]))
          (rejoin (s2 :: ss2) ts2).data [t0] (s.data.reverse ++ [])]
        have he : (⟨(s.data.reverse ++ []).reverse⟩ : String) = s := by
          simp
        rw [he]
        rw [htail, hs2d, List.cons_append]
        rw [sentScan_afterWs_normal c2 (u2 ++ tail) [] (hs2head c2 u2 hs2d)]
        rw [← List.cons_append, ← hs2d, ← htail]
        simp only [List.map_cons, List.filter_cons]
        rw [pyStrip_good_id hsg]
        have hkeep : (s ≠ "") := goodSentence_ne_empty hsg
        rw [if_pos (by simpa using hkeep)]
        have ihres := ih ts2 (fun x hx => hs x (by simp [hx])) 
          (fun x hx => hts x (by simp [hx])) hlen2
        unfold split_into_sentences at ihres
        rw [ihres]



/-- **C9**: every sentence the splitter emits is non-empty, trimmed
and contains no separator occurrence (in particular a trailing
terminator never yields an empty trailing sentence); and rejoining
any sentences the splitter can produce with terminator runs and
segmenting the concatenation again reproduces the same sentence
sequence (idempotence).  Two concrete splits ground the boundary
behaviour. -/
theorem C9_segmenter (p : String) (ss ts : List String)
    (hs : ∀ s ∈ ss, goodSentence s = true)
    (hts : ∀ t ∈ ts, isTermRun t = true)
    (hlen : ss.length = ts.length) :
    (∀ s ∈ split_into_sentences p, goodSentence s = true) ∧
    split_into_sentences (rejoin ss ts) = ss ∧
    split_into_sentences "Eins. Zwei? Drei!" = ["Eins", "Zwei", "Drei"] ∧
    split_into_sentences "Satzende." = ["Satzende"] :=
  ⟨split_into_sentences_good p, split_rejoin ss ts hs hts hlen, by decide, by decide⟩

/-- Witness for **C9**: the statement at a concrete paragraph and a
concrete sentence/terminator list. -/
theorem C9_segmenter_witness :
    (∀ s ∈ split_into_sentences "Eins. Zwei? Drei!", goodSentence s = true) ∧
    split_into_sentences (rejoin ["Eins", "Zwei"] [".", "?"]) = ["Eins", "Zwei"] ∧
    split_into_sentences "Eins. Zwei? Drei!" = ["Eins", "Zwei", "Drei"] ∧
    split_into_sentences "Satzende." = ["Satzende"] :=
  C9_segmenter "Eins. Zwei? Drei!" ["Eins", "Zwei"] [".", "?"]
    (by decide) (by decide) rfl

end Crawler
